import Mathlib

/-!
# Verification of the tx_tools core (pulse_beep scheduler, sdr_mix mixer)

Shallow embedding of the two algorithmic cores of `tx_tools`:

* the tone scheduler of `src/pulse_beep.c` (`main`, lines 234-284): a fixed
  30-slot tone array, a leading silence, and a loop that repeatedly selects
  the beep source with the smallest countdown, appends a (silence, beep)
  pair, and advances every countdown;
* the streaming mixer of `src/sdr_mix.c` (`main`, lines 154-213): a
  read-convert-mix-write loop over unsigned 8-bit I/Q byte blocks.

Machine integers are modelled as `Int`/`Nat` with explicit wrapping where
the C code narrows (`(int8_t)`, `(uint8_t)` casts); `rand()` results are
modelled as an arbitrary integer in `[0, RAND_MAX]`, and the mixer's
`read`/`write` system calls as explicit per-iteration read results (writes
are modelled as succeeding; the short-write abort path is not exercised by
the claims below).
-/

/-- `INT_MAX` on the 32-bit-int platforms the tools target. -/
def INT_MAX : Int := 2147483647

/-- glibc's `RAND_MAX` (equal to `INT_MAX`). -/
def RAND_MAX : Int := 2147483647

/-- `tone_t` is declared in `pulse_text.h`, which is not part of the sources.
Modelled from the spec: a Tone is `{ frequency: signed int Hz (0 = silence),
level: signed int dB, duration: unsigned int microseconds }`.  The duration
field is kept as a mathematical integer; every duration the claims exercise
is nonnegative and far below `2^32`, where this agrees with the C value. -/
structure Tone where
  hz : Int
  db : Int
  us : Int
deriving DecidableEq, Repr

/-- `beep_t` from `src/pulse_beep.c`: frequency (Hz), attenuation (dB),
length (ms), interval (ms), and the mutable countdown `next` (ms). -/
structure Beep where
  freq : Int
  att : Int
  len : Int
  intv : Int
  next : Int
deriving DecidableEq, Repr

/-- The initial countdown draw
`p->next = (int)((long long)p->intv * rand() / RAND_MAX) + 1;`
(line 246), with `r` the value returned by `rand()`.  C `long long`
division truncates toward zero; for the nonnegative operands the claims
quantify over this agrees with Lean's `Int` division used here. -/
def initNext (intv : Int) (r : Int) : Int :=
  intv * r / RAND_MAX + 1

/-- Seeded initialization (lines 244-247): each source in list order gets
its countdown from its own `rand()` draw.  The draw list `rs` abstracts the
successive values of glibc `rand()` after `srand(seed)`. -/
def initBeeps (bs : List Beep) (rs : List Int) : List Beep :=
  List.zipWith (fun b r => { b with next := initNext b.intv r }) bs rs

/-- The selection fold of lines 251-259: starting from `gap = INT_MAX`,
`beep = NULL`, replace the running best whenever a source's countdown is
strictly smaller. -/
def selectGo : List Beep → Int → Option Beep → Int × Option Beep
  | [], gap, b => (gap, b)
  | p :: ps, gap, b =>
      if p.next < gap then selectGo ps p.next (some p) else selectGo ps gap b

/-- `// find next beep` (lines 251-259). -/
def selectBeep (bs : List Beep) : Int × Option Beep :=
  selectGo bs INT_MAX none

/-- The advance step of lines 276-283: every source with countdown at most
`gap` is reset to its interval, every other source has `gap` subtracted. -/
def advance (gap : Int) (bs : List Beep) : List Beep :=
  bs.map fun p =>
    if p.next ≤ gap then { p with next := p.intv } else { p with next := p.next - gap }

/-- The leading silence tone appended at lines 238-242. -/
def startTone : Tone := { hz := 0, db := -99, us := 500 * 1000 }

/-- The silence tone of one scheduling step (lines 262-266). -/
def silTone (gap : Int) : Tone := { hz := 0, db := -99, us := gap * 1000 }

/-- The beep tone of one scheduling step (lines 269-273). -/
def beepTone (p : Beep) : Tone := { hz := p.freq, db := p.att, us := p.len * 1000 }

/-- The scheduling loop `while (tones_idx < 30 - 2)` of lines 249-284,
written with an explicit fuel so that it is structurally recursive: the
loop body runs while `tonesIdx < 28`, appends a silence/beep pair, and
advances the countdowns.  `none` is returned if the selection leaves
`beep` as `NULL` (the C code would dereference a null pointer) or if the
fuel runs out before the loop condition fails; `schedule` below supplies
enough fuel that the latter never happens. -/
def schedGo : Nat → Nat → List Beep → Option (List Tone)
  | 0, tonesIdx, _ => if tonesIdx < 28 then none else some []
  | fuel + 1, tonesIdx, bs =>
      if tonesIdx < 28 then
        match selectBeep bs with
        | (gap, some b) =>
            (schedGo fuel (tonesIdx + 2) (advance gap bs)).map
              fun rest => silTone gap :: beepTone b :: rest
        | (_, none) => none
      else some []

/-- The whole tone-sequence construction of lines 234-284: the leading
silence at index 0, then the scheduling loop starting at `tones_idx = 1`.
The loop runs at most 14 iterations (indices 1,3,...,27), so fuel 14 is
exact. -/
def schedule (bs : List Beep) : Option (List Tone) :=
  (schedGo 14 1 bs).map fun rest => startTone :: rest

/-- End-to-end run from a configuration and the `rand()` draws. -/
def scheduleFromDraws (bs : List Beep) (rs : List Int) : Option (List Tone) :=
  schedule (initBeeps bs rs)

/-- Flatten a list of (silence, beep) pairs into the tone order in which
the loop appends them. -/
def pairsFlat (ps : List (Tone × Tone)) : List Tone :=
  ps.foldr (fun q acc => q.1 :: q.2 :: acc) []

/-- Loop invariant for the scheduler state: at least one source, and every
countdown and interval is a nonnegative `int` strictly below `INT_MAX`
(so the strict-`<`-from-`INT_MAX` selection always finds a source and no
`int` arithmetic overflows). -/
def GoodState (bs : List Beep) : Prop :=
  bs ≠ [] ∧ ∀ p ∈ bs, 0 ≤ p.next ∧ p.next < INT_MAX ∧ 0 ≤ p.intv ∧ p.intv < INT_MAX

instance : DecidablePred GoodState := fun bs => by
  unfold GoodState; infer_instance

/-! ## The sdr_mix mixing loop (`src/sdr_mix.c`, lines 154-213) -/

/-- The `(int8_t)` narrowing cast: wrap an integer into `[-128, 127]`.
gcc's implementation-defined behaviour on int-to-int8 narrowing is
two's-complement wrapping. -/
def wrap8 (x : Int) : Int := (x + 128) % 256 - 128

/-- Truncation toward zero, the C semantics of casting a `double` to an
integer type.  `Int.tdiv` is Lean's truncating division. -/
def ratTrunc (q : ℚ) : Int := Int.tdiv q.num (q.den : Int)

/-- `blk_cs8[k] = (int8_t)(blk_cu8[k] - 128)` — the gain-1.0 fast path of
lines 165-169 (`u` is the unsigned byte value). -/
def u2s (u : Nat) : Int := wrap8 ((u : Int) - 128)

/-- `blk_cu8[k] = (uint8_t)(blk_cs8[k] + 128)` — the convert step of lines
197-200. -/
def s2u (s : Int) : Nat := ((s + 128) % 256).toNat

/-- `(int8_t)((blk_cu8[k] - 128) * gain)` — the per-byte contribution of a
channel with gain `g` (lines 170-174 for the primary, line 192 for
secondary channels).  The `double` arithmetic is modelled as exact
rational arithmetic followed by the C double-to-int truncation; this is
bit-exact for the gain values (1.0) the claims exercise. -/
def gainConv (g : ℚ) (u : Nat) : Int := wrap8 (ratTrunc (((u : Int) - 128 : Int) * g))

/-- Convert-and-attenuate for the primary channel (lines 164-174): the
fast path is taken exactly when `gain == 1.0`. -/
def convPrimary (g : ℚ) (bs : List Nat) : List Int :=
  if g = 1 then bs.map u2s else bs.map (gainConv g)

/-- One `read()` outcome: an error (`rns < 0`) or a block of bytes. -/
inductive ReadRes where
  | err : ReadRes
  | ok : List Nat → ReadRes
deriving DecidableEq, Repr

/-- `blk_cs8[k] += (int8_t)((blk_cu8[k] - 128) * gain)` over `k < rn`
(lines 190-194): `+=` on `int8_t` promotes to `int` and narrows back,
hence the outer `wrap8`.  Positions of `acc` beyond the block read are
left unchanged. -/
def mixInto (g : ℚ) : List Int → List Nat → List Int
  | acc, [] => acc
  | [], _ => []
  | a :: acc, u :: us => wrap8 (a + gainConv g u) :: mixInto g acc us

/-- The secondary-channel loop of lines 180-195.  State: the accumulator,
the running `write_size`, and whether a secondary read failed.  On a read
failure the C code executes `break`, which leaves only this `for` loop —
the remaining channels are not read, and the iteration carries on. -/
def mixSecs : List (ℚ × ReadRes) → List Int → Nat → List Int × Nat × Bool
  | [], acc, ws => (acc, ws, false)
  | (_, ReadRes.err) :: _, acc, ws => (acc, ws, true)
  | (g, ReadRes.ok bs) :: rest, acc, ws =>
      mixSecs rest (mixInto g acc bs) (max ws bs.length)

/-- Outcome of one iteration of the `while (1)` loop: either the primary
read failed (line 157-160, `break` out of the whole loop), or a block was
written.  `out` is the byte block written, `done` records whether
`write_size != frame_size` ended the loop (lines 209-212), and `secFail`
whether a secondary read failed during the iteration. -/
inductive IterOut where
  | primaryFail : IterOut
  | wrote : List Nat → Bool → Bool → IterOut
deriving DecidableEq, Repr

/-- One iteration of the mixing loop (lines 154-213): read the primary
channel, convert and attenuate it, zero the remainder of the accumulator
(line 177), read and mix each secondary channel, convert the first
`write_size` accumulator bytes back to unsigned and write them.  The
`write()` call is modelled as succeeding. -/
def mixIter (frameSize : Nat) (g0 : ℚ) (res0 : ReadRes)
    (secs : List (ℚ × ReadRes)) : IterOut :=
  match res0 with
  | ReadRes.err => IterOut.primaryFail
  | ReadRes.ok bs0 =>
      let r1 := bs0.length
      let acc0 := convPrimary g0 bs0 ++ List.replicate (frameSize - r1) 0
      match mixSecs secs acc0 r1 with
      | (acc, ws, secFail) =>
          IterOut.wrote ((acc.take ws).map s2u) (ws ≠ frameSize) secFail

/-- How the loop ended: `finished` for the `write_size != frame_size`
"Done." exit, `readFail` for the primary-read `break`, `outOfTrace` when
the supplied read trace was exhausted while the loop would continue. -/
inductive LoopEnd where
  | finished : LoopEnd
  | readFail : LoopEnd
  | outOfTrace : LoopEnd
deriving DecidableEq, Repr

/-- The full `while (1)` loop, driven by a trace of per-iteration read
results: element `t` of the trace gives the primary read result and the
secondary read results of iteration `t`.  Returns all bytes written and
how the loop ended. -/
def mixRun (frameSize : Nat) (g0 : ℚ) (gs : List ℚ) :
    List (ReadRes × List ReadRes) → List Nat × LoopEnd
  | [] => ([], LoopEnd.outOfTrace)
  | (res0, ress) :: rest =>
      match mixIter frameSize g0 res0 (List.zip gs ress) with
      | IterOut.primaryFail => ([], LoopEnd.readFail)
      | IterOut.wrote out true _ => (out, LoopEnd.finished)
      | IterOut.wrote out false _ =>
          match mixRun frameSize g0 gs rest with
          | (more, e) => (out ++ more, e)

/-! ## Scheduler: source selection (claim C1) -/

theorem selectGo_of_forall_not (bs : List Beep) :
    ∀ (gap : Int) (b : Option Beep), (∀ p ∈ bs, ¬ p.next < gap) →
      selectGo bs gap b = (gap, b) := by
  induction bs with
  | nil => intro gap b _; rfl
  | cons p ps ih =>
      intro gap b h
      have hp : ¬ p.next < gap := h p (List.mem_cons_self p ps)
      simp only [selectGo, if_neg hp]
      exact ih gap b fun q hq => h q (List.mem_cons_of_mem p hq)

theorem selectGo_found (bs : List Beep) :
    ∀ (gap : Int) (b : Option Beep), (∃ p ∈ bs, p.next < gap) →
      ∃ i, ∃ hi : i < bs.length,
        selectGo bs gap b = ((bs.get ⟨i, hi⟩).next, some (bs.get ⟨i, hi⟩)) ∧
        (bs.get ⟨i, hi⟩).next < gap ∧
        (∀ j, ∀ hj : j < bs.length, (bs.get ⟨i, hi⟩).next ≤ (bs.get ⟨j, hj⟩).next) ∧
        (∀ j, ∀ hj : j < bs.length, j < i →
          (bs.get ⟨i, hi⟩).next < (bs.get ⟨j, hj⟩).next) := by
  induction bs with
  | nil => rintro gap b ⟨p, hp, -⟩; exact absurd hp (List.not_mem_nil p)
  | cons p ps ih =>
      intro gap b hex
      by_cases hp : p.next < gap
      · simp only [selectGo, if_pos hp]
        by_cases hps : ∃ q ∈ ps, q.next < p.next
        · obtain ⟨i, hi, heq, hlt, hmin, hearly⟩ := ih p.next (some p) hps
          refine ⟨i + 1, by simpa using Nat.succ_lt_succ hi, ?_, ?_, ?_, ?_⟩
          · simpa using heq
          · simpa using lt_trans hlt hp
          · intro j hj
            match j with
            | 0 => simpa using le_of_lt hlt
            | j + 1 =>
                have hj' : j < ps.length := by simpa using Nat.lt_of_succ_lt_succ hj
                simpa using hmin j hj'
          · intro j hj hji
            match j with
            | 0 => simpa using hlt
            | j + 1 =>
                have hj' : j < ps.length := by simpa using Nat.lt_of_succ_lt_succ hj
                simpa using hearly j hj' (Nat.lt_of_succ_lt_succ hji)
        · push_neg at hps
          rw [selectGo_of_forall_not ps p.next (some p) fun q hq => not_lt.mpr (hps q hq)]
          refine ⟨0, by simp, by simp, by simpa using hp, ?_, ?_⟩
          · intro j hj
            match j with
            | 0 => simp
            | j + 1 =>
                have hj' : j < ps.length := by simpa using Nat.lt_of_succ_lt_succ hj
                simpa using hps _ (ps.get_mem j hj')
          · intro j hj hji; omega
      · simp only [selectGo, if_neg hp]
        have hps : ∃ q ∈ ps, q.next < gap := by
          obtain ⟨q, hq, hqlt⟩ := hex
          rcases List.mem_cons.mp hq with rfl | hq'
          · exact absurd hqlt hp
          · exact ⟨q, hq', hqlt⟩
        obtain ⟨i, hi, heq, hlt, hmin, hearly⟩ := ih gap b hps
        refine ⟨i + 1, by simpa using Nat.succ_lt_succ hi, ?_, ?_, ?_, ?_⟩
        · simpa using heq
        · simpa using hlt
        · intro j hj
          match j with
          | 0 =>
              have : (ps.get ⟨i, hi⟩).next < p.next := lt_of_lt_of_le hlt (not_lt.mp hp)
              simpa using le_of_lt this
          | j + 1 =>
              have hj' : j < ps.length := by simpa using Nat.lt_of_succ_lt_succ hj
              simpa using hmin j hj'
        · intro j hj hji
          match j with
          | 0 => simpa using lt_of_lt_of_le hlt (not_lt.mp hp)
          | j + 1 =>
              have hj' : j < ps.length := by simpa using Nat.lt_of_succ_lt_succ hj
              simpa using hearly j hj' (Nat.lt_of_succ_lt_succ hji)

/-- C1: at every scheduling step the selection loop (lines 251-259) picks
the source with the minimal countdown, and on ties the source appearing
earliest in the source list; the returned `gap` is that minimum.  The
hypothesis (some countdown is below `INT_MAX`, the starting value of the
fold) holds at every iteration of the main loop for any configuration
whose countdowns fit in `int`. -/
theorem select_picks_earliest_min (bs : List Beep)
    (hex : ∃ p ∈ bs, p.next < INT_MAX) :
    ∃ i, ∃ hi : i < bs.length,
      selectBeep bs = ((bs.get ⟨i, hi⟩).next, some (bs.get ⟨i, hi⟩)) ∧
      (∀ j, ∀ hj : j < bs.length, (bs.get ⟨i, hi⟩).next ≤ (bs.get ⟨j, hj⟩).next) ∧
      (∀ j, ∀ hj : j < bs.length, j < i →
        (bs.get ⟨i, hi⟩).next < (bs.get ⟨j, hj⟩).next) := by
  obtain ⟨i, hi, heq, _, hmin, hearly⟩ := selectGo_found bs INT_MAX none hex
  exact ⟨i, hi, heq, hmin, hearly⟩

/-- Witness for C1: three sources with countdowns 7, 3, 3 — the source at
index 1 (the earlier of the two tied minima) is selected with gap 3. -/
theorem select_picks_earliest_min_witness :
    (∃ p ∈ [Beep.mk 1 0 0 5 7, Beep.mk 2 0 0 5 3, Beep.mk 3 0 0 5 3],
        p.next < INT_MAX) ∧
    (∃ i, ∃ hi : i < ([Beep.mk 1 0 0 5 7, Beep.mk 2 0 0 5 3,
          Beep.mk 3 0 0 5 3] : List Beep).length,
      selectBeep [Beep.mk 1 0 0 5 7, Beep.mk 2 0 0 5 3, Beep.mk 3 0 0 5 3] =
        (([Beep.mk 1 0 0 5 7, Beep.mk 2 0 0 5 3, Beep.mk 3 0 0 5 3].get
            ⟨i, hi⟩).next,
          some ([Beep.mk 1 0 0 5 7, Beep.mk 2 0 0 5 3, Beep.mk 3 0 0 5 3].get
            ⟨i, hi⟩)) ∧
      (∀ j, ∀ hj : j < ([Beep.mk 1 0 0 5 7, Beep.mk 2 0 0 5 3,
          Beep.mk 3 0 0 5 3] : List Beep).length,
        ([Beep.mk 1 0 0 5 7, Beep.mk 2 0 0 5 3, Beep.mk 3 0 0 5 3].get
            ⟨i, hi⟩).next ≤
          ([Beep.mk 1 0 0 5 7, Beep.mk 2 0 0 5 3, Beep.mk 3 0 0 5 3].get
            ⟨j, hj⟩).next) ∧
      (∀ j, ∀ hj : j < ([Beep.mk 1 0 0 5 7, Beep.mk 2 0 0 5 3,
          Beep.mk 3 0 0 5 3] : List Beep).length, j < i →
        ([Beep.mk 1 0 0 5 7, Beep.mk 2 0 0 5 3, Beep.mk 3 0 0 5 3].get
            ⟨i, hi⟩).next <
          ([Beep.mk 1 0 0 5 7, Beep.mk 2 0 0 5 3, Beep.mk 3 0 0 5 3].get
            ⟨j, hj⟩).next)) :=
  ⟨by decide, select_picks_earliest_min _ (by decide)⟩

/-! ## Scheduler: countdown advance (claim C2) -/

/-- C2: after a pair is appended with some `gap`, the advance step (lines
276-283) rewrites every source's countdown — not only the selected
one — to its interval when the countdown is at most `gap`, and to
`countdown - gap` otherwise; the list of sources keeps its length and
order. -/
theorem advance_resets_or_subtracts (gap : Int) (bs : List Beep) :
    (advance gap bs).length = bs.length ∧
    ∀ i, ∀ hi : i < bs.length, ∀ hi2 : i < (advance gap bs).length,
      (advance gap bs)[i] =
        (if bs[i].next ≤ gap then { bs[i] with next := bs[i].intv }
         else { bs[i] with next := bs[i].next - gap }) := by
  refine ⟨by simp [advance], ?_⟩
  intro i hi hi2
  simp [advance]

/-- Witness for C2: with `gap = 5`, a source with countdown 4 is reset to
its interval 10 and a source with countdown 9 drops to 4. -/
theorem advance_resets_or_subtracts_witness :
    ((advance 5 [Beep.mk 1 0 0 10 4, Beep.mk 2 0 0 10 9]).get ⟨0, by decide⟩).next = 10 ∧
    ((advance 5 [Beep.mk 1 0 0 10 4, Beep.mk 2 0 0 10 9]).get ⟨1, by decide⟩).next = 4 := by
  have h0 := (advance_resets_or_subtracts 5
      [Beep.mk 1 0 0 10 4, Beep.mk 2 0 0 10 9]).2 0 (by decide) (by decide)
  have h1 := (advance_resets_or_subtracts 5
      [Beep.mk 1 0 0 10 4, Beep.mk 2 0 0 10 9]).2 1 (by decide) (by decide)
  exact ⟨by rw [show ((advance 5 [Beep.mk 1 0 0 10 4, Beep.mk 2 0 0 10 9]).get
      ⟨0, by decide⟩) = (advance 5 [Beep.mk 1 0 0 10 4, Beep.mk 2 0 0 10 9])[0]
      from rfl, h0]; decide,
    by rw [show ((advance 5 [Beep.mk 1 0 0 10 4, Beep.mk 2 0 0 10 9]).get
      ⟨1, by decide⟩) = (advance 5 [Beep.mk 1 0 0 10 4, Beep.mk 2 0 0 10 9])[1]
      from rfl, h1]; decide⟩

/-! ## Scheduler: initial countdown draw (claim C3) -/

theorem initNext_bounds (intv r : Int) (hI : 0 ≤ intv) (hr : 0 ≤ r)
    (hrM : r ≤ RAND_MAX) :
    1 ≤ initNext intv r ∧ initNext intv r ≤ intv + 1 := by
  have hMpos : (0 : Int) < RAND_MAX := by norm_num [RAND_MAX]
  have hdiv_nonneg : 0 ≤ intv * r / RAND_MAX :=
    Int.ediv_nonneg (mul_nonneg hI hr) (le_of_lt hMpos)
  refine ⟨by unfold initNext; omega, ?_⟩
  have hle : intv * r ≤ intv * RAND_MAX := mul_le_mul_of_nonneg_left hrM hI
  have h2 : intv * r / RAND_MAX ≤ intv * RAND_MAX / RAND_MAX :=
    Int.ediv_le_ediv hMpos hle
  rw [Int.mul_ediv_cancel intv (ne_of_gt hMpos)] at h2
  unfold initNext; omega

theorem initNext_strict (intv r : Int) (hI : 1 ≤ intv)
    (hlt : r < RAND_MAX) : initNext intv r ≤ intv := by
  have hMpos : (0 : Int) < RAND_MAX := by norm_num [RAND_MAX]
  have hIpos : (0 : Int) < intv := lt_of_lt_of_le zero_lt_one hI
  have hmul : intv * r < intv * RAND_MAX := mul_lt_mul_of_pos_left hlt hIpos
  have h2 : intv * r / RAND_MAX < intv := by
    rw [Int.ediv_lt_iff_lt_mul hMpos]; exact hmul
  unfold initNext; omega

/-- Counterexample for C3: the claim says the initial countdown never
exceeds the interval, but for interval 1 the draw
`(int)((long long)1 * rand() / RAND_MAX) + 1` evaluates to 2 when
`rand()` returns `RAND_MAX` — `RAND_MAX` is a legal `rand()` value. -/
theorem initNext_exceeds_interval :
    (1 : Int) ≥ 1 ∧ 0 ≤ RAND_MAX ∧ RAND_MAX ≤ RAND_MAX ∧
      initNext 1 RAND_MAX = 2 := by
  refine ⟨le_refl 1, by norm_num [RAND_MAX], le_refl _, ?_⟩
  unfold initNext RAND_MAX
  norm_num

/-- C3 (amended): for interval `I ≥ 1` the initial countdown drawn from a
`rand()` value `r ∈ [0, RAND_MAX]` lies in `{1, …, I+1}`: it is never 0,
and it exceeds `I` (by exactly 1) only when the draw is exactly
`RAND_MAX`. -/
theorem initNext_in_range (intv r : Int) (hI : 1 ≤ intv) (hr : 0 ≤ r)
    (hrM : r ≤ RAND_MAX) :
    1 ≤ initNext intv r ∧ initNext intv r ≤ intv + 1 ∧
      (r < RAND_MAX → initNext intv r ≤ intv) :=
  ⟨(initNext_bounds intv r (le_trans zero_le_one hI) hr hrM).1,
   (initNext_bounds intv r (le_trans zero_le_one hI) hr hrM).2,
   fun hlt => initNext_strict intv r hI hlt⟩

/-- Witness for the amended C3 at interval 4000 and draw 12345. -/
theorem initNext_in_range_witness :
    1 ≤ initNext 4000 12345 ∧ initNext 4000 12345 ≤ 4000 + 1 ∧
      (12345 < RAND_MAX → initNext 4000 12345 ≤ 4000) :=
  initNext_in_range 4000 12345 (by norm_num) (by norm_num) (by norm_num [RAND_MAX])

/-! ## Mixer: helper lemmas -/

theorem s2u_u2s (u : Nat) (h : u < 256) : s2u (u2s u) = u := by
  unfold s2u u2s wrap8
  omega

theorem map_s2u_u2s (bs : List Nat) (h : ∀ u ∈ bs, u < 256) :
    (bs.map u2s).map s2u = bs := by
  induction bs with
  | nil => rfl
  | cons u us ih =>
      simp only [List.map_cons, List.cons.injEq]
      exact ⟨s2u_u2s u (h u (List.mem_cons_self u us)),
        ih fun v hv => h v (List.mem_cons_of_mem u hv)⟩

theorem ratTrunc_intCast (n : Int) : ratTrunc (n : ℚ) = n := by
  unfold ratTrunc
  rw [Rat.num_intCast, Rat.den_intCast]
  simp [Int.tdiv_one]

theorem gainConv_one (u : Nat) : gainConv 1 u = u2s u := by
  unfold gainConv u2s
  rw [mul_one, ratTrunc_intCast]

theorem wrap8_wrap8 (x : Int) : wrap8 (wrap8 x) = wrap8 x := by
  unfold wrap8; omega

theorem mixIter_single (fs : Nat) (bs : List Nat) (hb : ∀ u ∈ bs, u < 256) :
    mixIter fs 1 (ReadRes.ok bs) [] =
      IterOut.wrote bs (decide (bs.length ≠ fs)) false := by
  unfold mixIter mixSecs convPrimary
  simp only [if_pos rfl]
  congr 1
  calc ((bs.map u2s ++ List.replicate (fs - bs.length) 0).take bs.length).map s2u
      = ((bs.map u2s ++ List.replicate (fs - bs.length) 0).take
          (bs.map u2s).length).map s2u := by rw [List.length_map]
    _ = (bs.map u2s).map s2u := by rw [List.take_left]
    _ = bs := map_s2u_u2s bs hb

theorem mixInto_length (g : ℚ) (acc : List Int) :
    ∀ bs : List Nat, (mixInto g acc bs).length = acc.length := by
  induction acc with
  | nil => intro bs; cases bs <;> rfl
  | cons a acc ih =>
      intro bs
      cases bs with
      | nil => rfl
      | cons u us => simp [mixInto, ih us]

theorem mixInto_getElem? (g : ℚ) (acc : List Int) :
    ∀ (bs : List Nat) (i : Nat),
      (mixInto g acc bs)[i]? =
        match bs[i]? with
        | some u => (acc[i]?).map fun a => wrap8 (a + gainConv g u)
        | none => acc[i]? := by
  induction acc with
  | nil =>
      intro bs i
      cases bs with
      | nil => cases i <;> rfl
      | cons u us =>
          cases i with
          | zero => simp [mixInto]
          | succ i => rcases h : us[i]? with _ | v <;> simp [mixInto, h]
  | cons a acc ih =>
      intro bs i
      cases bs with
      | nil => rfl
      | cons u us =>
          cases i with
          | zero => simp [mixInto]
          | succ i => simpa [mixInto] using ih us i

/-! ## Mixer: single channel with gain 1.0 (claim C7) -/

/-- C7: mixing exactly one input channel with gain exactly 1.0 reproduces
the input byte stream byte-for-byte.  First conjunct: the
unsigned-to-signed conversion (subtract 128, narrow to `int8_t`) followed
by the signed-to-unsigned conversion (add 128, narrow to `uint8_t`) is an
identity round-trip on every byte value 0-255.  Second conjunct: a full
run of the loop over any sequence of full blocks ending in one short
block writes back exactly the concatenated input and terminates via the
`write_size != frame_size` exit. -/
theorem mixer_gain1_identity :
    (∀ u : Nat, u < 256 → s2u (u2s u) = u) ∧
    (∀ (fs : Nat) (front : List (List Nat)) (last : List Nat),
      (∀ bs ∈ front, (∀ u ∈ bs, u < 256) ∧ bs.length = fs) →
      (∀ u ∈ last, u < 256) → last.length < fs →
      mixRun fs 1 [] ((front ++ [last]).map fun bs => (ReadRes.ok bs, [])) =
        ((front ++ [last]).flatten, LoopEnd.finished)) := by
  refine ⟨s2u_u2s, ?_⟩
  intro fs front last hfront hlast hlen
  induction front with
  | nil =>
      simp only [List.nil_append, List.map_cons, List.map_nil, List.flatten]
      unfold mixRun
      rw [List.zip_nil_right, mixIter_single fs last hlast,
        decide_eq_true (Nat.ne_of_lt hlen)]
      simp
  | cons bs front ih =>
      have hbs := hfront bs (List.mem_cons_self bs front)
      simp only [List.cons_append, List.map_cons, List.flatten]
      unfold mixRun
      rw [List.zip_nil_right, mixIter_single fs bs hbs.1, hbs.2,
        decide_eq_false (by simp : ¬ fs ≠ fs),
        ih fun b hb => hfront b (List.mem_cons_of_mem bs hb)]
      rfl

/-- Witness for C7: byte 200 round-trips, and the two-block input
`[0,255]` then `[7]` with block size 2 is reproduced verbatim. -/
theorem mixer_gain1_identity_witness :
    s2u (u2s 200) = 200 ∧
    mixRun 2 1 [] ((([[0, 255], [7]] : List (List Nat))).map
        fun bs => (ReadRes.ok bs, [])) =
      (([[0, 255], [7]] : List (List Nat)).flatten, LoopEnd.finished) :=
  ⟨mixer_gain1_identity.1 200 (by decide),
   mixer_gain1_identity.2 2 [[0, 255]] [7] (by decide) (by decide) (by decide)⟩

/-! ## Mixer: all channels at end-of-stream (claim C10) -/

theorem mixSecs_all_empty (l : List (ℚ × ReadRes)) :
    ∀ (acc : List Int) (ws : Nat), (∀ c ∈ l, c.2 = ReadRes.ok []) →
      mixSecs l acc ws = (acc, ws, false) := by
  induction l with
  | nil => intro acc ws _; rfl
  | cons c rest ih =>
      intro acc ws h
      obtain ⟨g, res⟩ := c
      have : res = ReadRes.ok [] := h (g, res) (List.mem_cons_self _ _)
      subst this
      show mixSecs rest (mixInto g acc []) (max ws 0) = (acc, ws, false)
      rw [Nat.max_zero]
      have hacc : mixInto g acc [] = acc := by cases acc <;> rfl
      rw [hacc]
      exact ih acc ws fun c hc => h c (List.mem_cons_of_mem _ hc)

/-- C10: when every channel's read returns 0 bytes in an iteration, the
mixer performs a zero-length write and exits the loop normally through
the `write_size != frame_size` check ("Done."), raising no error; a run
consisting only of empty reads therefore produces empty output and
finishes normally. -/
theorem mixer_empty_reads_finish (fs : Nat) (hfs : fs ≠ 0) (g0 : ℚ)
    (gs : List ℚ) (ress : List ReadRes)
    (hress : ∀ rr ∈ ress, rr = ReadRes.ok []) :
    mixIter fs g0 (ReadRes.ok []) (List.zip gs ress) =
        IterOut.wrote [] true false ∧
    mixRun fs g0 gs [(ReadRes.ok [], ress)] = ([], LoopEnd.finished) := by
  have hzip : ∀ c ∈ List.zip gs ress, c.2 = ReadRes.ok [] := by
    rintro ⟨g, res⟩ hc
    exact hress res (List.of_mem_zip hc).2
  have hconv : convPrimary g0 [] = [] := by
    unfold convPrimary; split <;> rfl
  have hiter : mixIter fs g0 (ReadRes.ok []) (List.zip gs ress) =
      IterOut.wrote [] true false := by
    have step : mixIter fs g0 (ReadRes.ok []) (List.zip gs ress) =
        match mixSecs (List.zip gs ress)
            (convPrimary g0 [] ++ List.replicate (fs - 0) 0) 0 with
        | (acc, ws, secFail) =>
            IterOut.wrote ((acc.take ws).map s2u) (decide (ws ≠ fs)) secFail := rfl
    rw [step, hconv, mixSecs_all_empty _ _ _ hzip]
    simp [decide_eq_true (Ne.symm hfs)]
  refine ⟨hiter, ?_⟩
  unfold mixRun
  rw [hiter]

/-- Witness for C10 at block size 4, two channels, empty reads. -/
theorem mixer_empty_reads_finish_witness :
    mixIter 4 1 (ReadRes.ok [])
        (List.zip [1, (1 : ℚ)/2] [ReadRes.ok [], ReadRes.ok []]) =
      IterOut.wrote [] true false ∧
    mixRun 4 1 [1, (1 : ℚ)/2] [(ReadRes.ok [], [ReadRes.ok [], ReadRes.ok []])] =
      ([], LoopEnd.finished) :=
  mixer_empty_reads_finish 4 (by decide) 1 [1, (1 : ℚ)/2]
    [ReadRes.ok [], ReadRes.ok []] (by decide)

/-! ## Mixer: secondary-channel read failure (claim C6) -/

/-- C6 failing input, evaluated: with block size 2, two channels at gain
1.0, the primary read returning the full block `[10, 20]` and the
secondary read failing, the iteration still converts and writes the block
(`wrote [10, 20]` with the continue flag, first conjunct), and the whole
loop goes on to a second iteration that reads every channel again and
only then finishes (second conjunct) — the `break` at line 184 of
`src/sdr_mix.c` leaves only the inner `for` loop over the secondary
channels, not the `while (1)` mixing loop, contradicting the documented
abort-on-read-failure behaviour. -/
theorem mixer_secondary_fail_still_writes :
    mixIter 2 1 (ReadRes.ok [10, 20]) [(1, ReadRes.err)] =
      IterOut.wrote [10, 20] false true ∧
    mixRun 2 1 [1] [(ReadRes.ok [10, 20], [ReadRes.err]),
        (ReadRes.ok [30], [ReadRes.ok []])] = ([10, 20, 30], LoopEnd.finished) := by
  constructor
  · rfl
  · rfl

/-! ## Mixer: secondary channel longer than primary (claim C8) -/

/-- C8: in an iteration where the primary channel reads `p` (N bytes) and
the one secondary channel reads `s` (M > N bytes, M at most the block
size), both at gain 1.0, the written block has exactly M bytes — the
write size is the maximum byte count across channels — and its bytes at
indices `[N, M)` are the secondary channel's bytes there, because the
accumulator beyond N was zero-padded before mixing and the offset
conversions round-trip. -/
theorem mixer_tail_is_secondary (fs : Nat) (p s : List Nat)
    (hNM : p.length < s.length) (hM : s.length ≤ fs)
    (hsb : ∀ u ∈ s, u < 256) :
    ∃ out : List Nat,
      mixIter fs 1 (ReadRes.ok p) [(1, ReadRes.ok s)] =
          IterOut.wrote out (decide (s.length ≠ fs)) false ∧
      out.length = s.length ∧
      ∀ i, p.length ≤ i → i < s.length → out[i]? = s[i]? := by
  have hconv : convPrimary 1 p = p.map u2s := by
    unfold convPrimary; rw [if_pos rfl]
  have hacc0len : (convPrimary 1 p ++ List.replicate (fs - p.length) 0).length = fs := by
    rw [hconv]
    simp only [List.length_append, List.length_replicate, List.length_map]
    omega
  have hmixlen : (mixInto 1 (convPrimary 1 p ++ List.replicate (fs - p.length) 0)
      s).length = fs := by rw [mixInto_length, hacc0len]
  have hstep : mixIter fs 1 (ReadRes.ok p) [(1, ReadRes.ok s)] =
      IterOut.wrote
        (((mixInto 1 (convPrimary 1 p ++ List.replicate (fs - p.length) 0)
            s).take (max p.length s.length)).map s2u)
        (decide (max p.length s.length ≠ fs)) false := rfl
  rw [Nat.max_eq_right (le_of_lt hNM)] at hstep
  refine ⟨_, hstep, ?_, ?_⟩
  · rw [List.length_map, List.length_take, hmixlen]
    omega
  · intro i hNi hiM
    rw [List.getElem?_map, List.getElem?_take, if_pos hiM, mixInto_getElem?]
    have hsi : s[i]? = some s[i] := List.getElem?_eq_getElem (by omega)
    have hacc0 : (convPrimary 1 p ++ List.replicate (fs - p.length) 0)[i]? =
        some 0 := by
      rw [List.getElem?_append_right (by rw [hconv, List.length_map]; omega)]
      rw [hconv, List.length_map, List.getElem?_replicate, if_pos (by omega)]
    rw [hsi, hacc0]
    have hu : s[i] < 256 := hsb _ (s.getElem_mem (by omega))
    simp only [Option.map_some, Option.map_some', gainConv_one, zero_add]
    have hw : wrap8 (u2s s[i]) = u2s s[i] := by
      unfold u2s; rw [wrap8_wrap8]
    rw [hw, s2u_u2s _ hu]

/-- Witness for C8: block size 4, primary reads 1 byte, secondary reads 3
bytes: 3 bytes are written and bytes 1..2 equal the secondary's. -/
theorem mixer_tail_is_secondary_witness :
    ∃ out : List Nat,
      mixIter 4 1 (ReadRes.ok [200]) [(1, ReadRes.ok [10, 20, 30])] =
          IterOut.wrote out (decide (([10, 20, 30] : List Nat).length ≠ 4)) false ∧
      out.length = ([10, 20, 30] : List Nat).length ∧
      ∀ i, ([200] : List Nat).length ≤ i → i < ([10, 20, 30] : List Nat).length →
        out[i]? = ([10, 20, 30] : List Nat)[i]? :=
  mixer_tail_is_secondary 4 [200] [10, 20, 30] (by decide) (by decide) (by decide)

/-! ## Scheduler: loop structure (claims C4 and C9) -/

theorem pairsFlat_length (ps : List (Tone × Tone)) :
    (pairsFlat ps).length = 2 * ps.length := by
  induction ps with
  | nil => rfl
  | cons q ps ih => simp [pairsFlat] at ih ⊢; omega

theorem pairsFlat_append (ps qs : List (Tone × Tone)) :
    pairsFlat (ps ++ qs) = pairsFlat ps ++ pairsFlat qs := by
  induction ps with
  | nil => rfl
  | cons q ps ih => simp [pairsFlat] at ih ⊢; exact ih

theorem selectBeep_good (bs : List Beep) (h : GoodState bs) :
    ∃ gap b, selectBeep bs = (gap, some b) ∧ b ∈ bs ∧ b.next = gap ∧
      0 ≤ gap ∧ gap < INT_MAX ∧ ∀ p ∈ bs, gap ≤ p.next := by
  obtain ⟨hne, hall⟩ := h
  obtain ⟨p0, hp0⟩ := List.exists_mem_of_ne_nil bs hne
  obtain ⟨i, hi, heq, -, hmin, -⟩ := selectGo_found bs INT_MAX none
    ⟨p0, hp0, (hall p0 hp0).2.1⟩
  refine ⟨(bs.get ⟨i, hi⟩).next, bs.get ⟨i, hi⟩, heq, bs.get_mem i hi, rfl,
    (hall _ (bs.get_mem i hi)).1, (hall _ (bs.get_mem i hi)).2.1, ?_⟩
  intro p hp
  obtain ⟨⟨j, hj⟩, rfl⟩ := List.mem_iff_get.mp hp
  exact hmin j hj

theorem advance_good (gap : Int) (bs : List Beep) (hgap : 0 ≤ gap)
    (h : GoodState bs) : GoodState (advance gap bs) := by
  obtain ⟨hne, hall⟩ := h
  constructor
  · simp [advance, hne]
  · intro p' hp'
    obtain ⟨p, hp, rfl⟩ := List.mem_map.mp hp'
    obtain ⟨h1, h2, h3, h4⟩ := hall p hp
    by_cases hle : p.next ≤ gap
    · simp only [if_pos hle]
      exact ⟨h3, h4, h3, h4⟩
    · simp only [if_neg hle]
      refine ⟨by omega, by omega, h3, h4⟩

theorem schedGo_spec (fuel : Nat) : ∀ (idx : Nat) (bs : List Beep),
    GoodState bs → idx + 2 * fuel = 29 →
    ∃ ps : List (Tone × Tone),
      schedGo fuel idx bs = some (pairsFlat ps) ∧
      ps.length = fuel ∧
      ∀ q ∈ ps, q.1.hz = 0 ∧ q.1.db = -99 := by
  induction fuel with
  | zero =>
      intro idx bs _ hidx
      have hge : ¬ idx < 28 := by omega
      exact ⟨[], by simp [schedGo, hge, pairsFlat], rfl, by simp⟩
  | succ fuel ih =>
      intro idx bs hgood hidx
      have hlt : idx < 28 := by omega
      obtain ⟨gap, b, hsel, hb, hbn, hg0, hgM, hmin⟩ := selectBeep_good bs hgood
      obtain ⟨ps, hrec, hlen, hsil⟩ := ih (idx + 2) (advance gap bs)
        (advance_good gap bs hg0 hgood) (by omega)
      refine ⟨(silTone gap, beepTone b) :: ps, ?_, by simp [hlen], ?_⟩
      · simp only [schedGo, if_pos hlt, hsel, hrec, Option.map_some']
        rfl
      · intro q hq
        rcases List.mem_cons.mp hq with rfl | hq'
        · exact ⟨rfl, rfl⟩
        · exact hsil q hq'

theorem initBeeps_mem_bounds (bs : List Beep) :
    ∀ (rs : List Int),
      (∀ b ∈ bs, 0 ≤ b.intv ∧ b.intv ≤ INT_MAX - 2) →
      (∀ r ∈ rs, 0 ≤ r ∧ r ≤ RAND_MAX) →
      ∀ p ∈ initBeeps bs rs,
        0 ≤ p.next ∧ p.next < INT_MAX ∧ 0 ≤ p.intv ∧ p.intv < INT_MAX := by
  have hIM : INT_MAX = 2147483647 := rfl
  induction bs with
  | nil => intro rs _ _ p hp; simp [initBeeps] at hp
  | cons b bs ih =>
      intro rs hbs hrs p hp
      cases rs with
      | nil => simp [initBeeps] at hp
      | cons r rs =>
          have hb := hbs b (List.mem_cons_self b bs)
          have hr := hrs r (List.mem_cons_self r rs)
          rcases List.mem_cons.mp hp with rfl | hp'
          · obtain ⟨hn1, hn2⟩ := initNext_bounds b.intv r hb.1 hr.1 hr.2
            refine ⟨by simp; omega, by simp; omega, by simp; omega, by simp; omega⟩
          · exact ih rs (fun q hq => hbs q (List.mem_cons_of_mem b hq))
              (fun q hq => hrs q (List.mem_cons_of_mem r hq)) p hp'

theorem initBeeps_good (bs : List Beep) (rs : List Int)
    (h1 : 1 ≤ bs.length) (hlen : rs.length = bs.length)
    (hbs : ∀ b ∈ bs, 0 ≤ b.intv ∧ b.intv ≤ INT_MAX - 2)
    (hrs : ∀ r ∈ rs, 0 ≤ r ∧ r ≤ RAND_MAX) :
    GoodState (initBeeps bs rs) := by
  constructor
  · have : (initBeeps bs rs).length = min bs.length rs.length := by
      simp [initBeeps]
    intro hcon
    rw [hcon] at this
    simp at this
    omega
  · exact initBeeps_mem_bounds bs rs hbs hrs

/-- C9: for every configuration of 1 to 32 sources whose intervals are
nonnegative `int` values small enough that the drawn countdowns fit in
`int` (at most `INT_MAX - 2`), and for every admissible sequence of
`rand()` draws, the scheduling loop terminates with a tone sequence of
exactly 29 tones: the leading silence followed by exactly 14
(silence, beep) pairs — the loop appends two tones per iteration starting
from index 1 and stops only once the index reaches 28, so capacity
truncation happens on every run. -/
theorem schedule_always_14_pairs (bs : List Beep) (rs : List Int)
    (h1 : 1 ≤ bs.length) (_h32 : bs.length ≤ 32)
    (hintv : ∀ b ∈ bs, 0 ≤ b.intv ∧ b.intv ≤ INT_MAX - 2)
    (hlen : rs.length = bs.length)
    (hrs : ∀ r ∈ rs, 0 ≤ r ∧ r ≤ RAND_MAX) :
    ∃ ps : List (Tone × Tone),
      scheduleFromDraws bs rs = some (startTone :: pairsFlat ps) ∧
      ps.length = 14 ∧
      (startTone :: pairsFlat ps).length = 29 ∧
      ∀ q ∈ ps, q.1.hz = 0 ∧ q.1.db = -99 := by
  obtain ⟨ps, hrun, hplen, hsil⟩ := schedGo_spec 14 1 (initBeeps bs rs)
    (initBeeps_good bs rs h1 hlen hintv hrs) (by norm_num)
  refine ⟨ps, ?_, hplen, ?_, hsil⟩
  · unfold scheduleFromDraws schedule
    rw [hrun, Option.map_some']
  · simp [pairsFlat_length, hplen]

/-- Witness for C9: one source (100 Hz, -6 dB, 14 ms, 4000 ms) and one
draw, 12345. -/
theorem schedule_always_14_pairs_witness :
    ∃ ps : List (Tone × Tone),
      scheduleFromDraws [Beep.mk 100 (-6) 14 4000 0] [12345] =
          some (startTone :: pairsFlat ps) ∧
      ps.length = 14 ∧
      (startTone :: pairsFlat ps).length = 29 ∧
      ∀ q ∈ ps, q.1.hz = 0 ∧ q.1.db = -99 :=
  schedule_always_14_pairs [Beep.mk 100 (-6) 14 4000 0] [12345]
    (by decide) (by decide) (by decide) (by decide) (by decide)

/-- C4: under the same admissibility conditions as C9, the produced
sequence always starts with the fixed silence tone (0 Hz, -99 dB,
500000 µs) appended before scheduling begins, never exceeds the 30-slot
capacity, and ends with a complete (silence, beep) pair: the last two
tones are a silence immediately followed by the selected source's beep,
never a dangling silence. -/
theorem schedule_shape_invariant (bs : List Beep) (rs : List Int)
    (h1 : 1 ≤ bs.length) (_h32 : bs.length ≤ 32)
    (hintv : ∀ b ∈ bs, 0 ≤ b.intv ∧ b.intv ≤ INT_MAX - 2)
    (hlen : rs.length = bs.length)
    (hrs : ∀ r ∈ rs, 0 ≤ r ∧ r ≤ RAND_MAX) :
    ∃ l : List Tone,
      scheduleFromDraws bs rs = some l ∧
      l.head? = some (Tone.mk 0 (-99) 500000) ∧
      l.length ≤ 30 ∧
      ∃ front sil bp, l = front ++ [sil, bp] ∧ sil.hz = 0 ∧ sil.db = -99 := by
  obtain ⟨ps, hrun, hplen, hsil⟩ := schedGo_spec 14 1 (initBeeps bs rs)
    (initBeeps_good bs rs h1 hlen hintv hrs) (by norm_num)
  have hne : ps ≠ [] := by
    intro hcon; rw [hcon] at hplen; simp at hplen
  refine ⟨startTone :: pairsFlat ps, ?_, by norm_num [startTone], ?_, ?_⟩
  · unfold scheduleFromDraws schedule
    rw [hrun, Option.map_some']
  · simp [pairsFlat_length, hplen]
  · obtain ⟨q, hq⟩ : ∃ q, ps.getLast hne = q := ⟨_, rfl⟩
    have hdec : ps = ps.dropLast ++ [q] := by
      rw [← hq]; exact (List.dropLast_append_getLast hne).symm
    have hqmem : q ∈ ps := by rw [← hq]; exact List.getLast_mem hne
    refine ⟨startTone :: pairsFlat ps.dropLast, q.1, q.2, ?_,
      (hsil q hqmem).1, (hsil q hqmem).2⟩
    calc startTone :: pairsFlat ps
        = startTone :: pairsFlat (ps.dropLast ++ [q]) := by rw [← hdec]
      _ = startTone :: (pairsFlat ps.dropLast ++ [q.1, q.2]) := by
            rw [pairsFlat_append]; rfl
      _ = (startTone :: pairsFlat ps.dropLast) ++ [q.1, q.2] := by
            rw [List.cons_append]

/-- Witness for C4: two sources, two draws. -/
theorem schedule_shape_invariant_witness :
    ∃ l : List Tone,
      scheduleFromDraws [Beep.mk 100 (-6) 14 4000 0, Beep.mk 200 (-9) 20 3500 0]
          [12345, 678] = some l ∧
      l.head? = some (Tone.mk 0 (-99) 500000) ∧
      l.length ≤ 30 ∧
      ∃ front sil bp, l = front ++ [sil, bp] ∧ sil.hz = 0 ∧ sil.db = -99 :=
  schedule_shape_invariant
    [Beep.mk 100 (-6) 14 4000 0, Beep.mk 200 (-9) 20 3500 0] [12345, 678]
    (by decide) (by decide) (by decide) (by decide) (by decide)

/-! ## Scheduler: single-source cycle structure (claim C5) -/

theorem schedGo_single_steady (p : Beep) (hp : p.next = p.intv)
    (hM : p.intv < INT_MAX) :
    ∀ (fuel idx : Nat), idx + 2 * fuel = 29 →
      schedGo fuel idx [p] =
        some (pairsFlat (List.replicate fuel (silTone p.intv, beepTone p))) := by
  intro fuel
  induction fuel with
  | zero =>
      intro idx hidx
      have hge : ¬ idx < 28 := by omega
      simp [schedGo, hge, pairsFlat]
  | succ fuel ih =>
      intro idx hidx
      have hlt : idx < 28 := by omega
      have hnM : p.next < INT_MAX := by rw [hp]; exact hM
      have hsel : selectBeep [p] = (p.next, some p) := by
        simp [selectBeep, selectGo, hnM]
      have hself : { p with next := p.intv } = p := by
        cases p; simp_all
      have hadv : advance p.next [p] = [p] := by
        simp [advance, hself]
      simp only [schedGo, if_pos hlt, hsel, hadv, ih (idx + 2) (by omega),
        Option.map_some']
      rw [hp]
      rfl

/-- Counterexample for C5: one source, 100 Hz at -6 dB, 14 ms beeps every
4000 ms, `rand()` draw 0 (so the first gap is 1 ms).  The second
(silence, beep) pair consists of a 4000000 µs silence and a 14000 µs
beep; their durations sum to 4014000 µs — not `I*1000 = 4000000` µs as
the claim states.  The advance step subtracts only the silence `gap`,
never the beep length, so each post-first cycle spans `(I+L)*1000` µs. -/
theorem pair_sum_counterexample :
    ((scheduleFromDraws [Beep.mk 100 (-6) 14 4000 0] [0]).map
        fun l => ((l.drop 3).take 2).map Tone.us) = some [4000000, 14000] ∧
    (4000000 : Int) + 14000 ≠ 4000 * 1000 := by
  constructor
  · rfl
  · decide

/-- C5 (amended): for a single beep source (frequency F, attenuation A,
duration L ms, interval I ms) and any `rand()` draw, the sequence starts
with the fixed 500000 µs silence; every beep tone is
`(F, A, L*1000 µs)`; the first cycle's silence is the drawn countdown
times 1000 µs; and for every cycle after the first the silence lasts
exactly `I*1000` µs, so each post-first (silence, beep) pair sums to
`(I+L)*1000` µs rather than `I*1000` µs. -/
theorem single_source_cycles (F A L I r : Int) (hI0 : 0 ≤ I)
    (hIM : I ≤ INT_MAX - 2) (hr0 : 0 ≤ r) (hrM : r ≤ RAND_MAX) :
    ∃ l : List Tone,
      scheduleFromDraws [Beep.mk F A L I 0] [r] = some l ∧
      l.head? = some (Tone.mk 0 (-99) 500000) ∧
      l.length = 29 ∧
      l[1]? = some (silTone (initNext I r)) ∧
      (∀ k : Nat, 1 ≤ k → k ≤ 14 → l[2*k]? = some (Tone.mk F A (L * 1000))) ∧
      (∀ k : Nat, 2 ≤ k → k ≤ 14 →
        l[2*k-1]? = some (Tone.mk 0 (-99) (I * 1000))) ∧
      I * 1000 + L * 1000 = (I + L) * 1000 := by
  have hIMval : INT_MAX = 2147483647 := rfl
  have hd := initNext_bounds I r hI0 hr0 hrM
  have hb : initBeeps [Beep.mk F A L I 0] [r] = [Beep.mk F A L I (initNext I r)] := by
    simp [initBeeps]
  have hnM : (Beep.mk F A L I (initNext I r)).next < INT_MAX := by
    show initNext I r < INT_MAX
    omega
  have hsel : selectBeep [Beep.mk F A L I (initNext I r)] =
      (initNext I r, some (Beep.mk F A L I (initNext I r))) := by
    simp [selectBeep, selectGo, hnM]
  have hadv : advance (initNext I r) [Beep.mk F A L I (initNext I r)] =
      [Beep.mk F A L I I] := by
    simp [advance]
  have hsteady := schedGo_single_steady (Beep.mk F A L I I) rfl
    (show I < INT_MAX by omega) 13 3 (by norm_num)
  have hrun : schedGo 14 1 [Beep.mk F A L I (initNext I r)] =
      some (silTone (initNext I r) :: Tone.mk F A (L * 1000) ::
        pairsFlat (List.replicate 13 (silTone I, Tone.mk F A (L * 1000)))) := by
    have h0 : schedGo 14 1 [Beep.mk F A L I (initNext I r)] =
        match selectBeep [Beep.mk F A L I (initNext I r)] with
        | (gap, some b) =>
            (schedGo 13 (1 + 2)
              (advance gap [Beep.mk F A L I (initNext I r)])).map
              fun rest => silTone gap :: beepTone b :: rest
        | (_, none) => none := rfl
    rw [h0, hsel]
    show (schedGo 13 3
        (advance (initNext I r) [Beep.mk F A L I (initNext I r)])).map
        (fun rest => silTone (initNext I r) ::
          beepTone (Beep.mk F A L I (initNext I r)) :: rest) = _
    rw [hadv, hsteady, Option.map_some']
    rfl
  have hall : scheduleFromDraws [Beep.mk F A L I 0] [r] =
      some (startTone :: silTone (initNext I r) :: Tone.mk F A (L * 1000) ::
        pairsFlat (List.replicate 13 (silTone I, Tone.mk F A (L * 1000)))) := by
    unfold scheduleFromDraws schedule
    rw [hb, hrun, Option.map_some']
  refine ⟨_, hall, by norm_num [startTone], ?_, rfl, ?_, ?_, by ring⟩
  · simp only [List.length_cons, pairsFlat_length, List.length_replicate]
  · intro k hk1 hk14
    interval_cases k <;> rfl
  · intro k hk2 hk14
    interval_cases k <;> rfl

/-- Witness for the amended C5 at F=100, A=-6, L=14, I=4000, draw 12345. -/
theorem single_source_cycles_witness :
    ∃ l : List Tone,
      scheduleFromDraws [Beep.mk 100 (-6) 14 4000 0] [12345] = some l ∧
      l.head? = some (Tone.mk 0 (-99) 500000) ∧
      l.length = 29 ∧
      l[1]? = some (silTone (initNext 4000 12345)) ∧
      (∀ k : Nat, 1 ≤ k → k ≤ 14 →
        l[2*k]? = some (Tone.mk 100 (-6) (14 * 1000))) ∧
      (∀ k : Nat, 2 ≤ k → k ≤ 14 →
        l[2*k-1]? = some (Tone.mk 0 (-99) (4000 * 1000))) ∧
      (4000 : Int) * 1000 + 14 * 1000 = (4000 + 14) * 1000 :=
  single_source_cycles 100 (-6) 14 4000 12345 (by decide) (by decide)
    (by decide) (by decide)
